import Mathlib

/-!
Verification development for the blur_cleaner image-cleaning pipeline.

The definitions below are shallow embeddings of functions from the
repository sources: fast_scan.py, scan.py, detectors.py, cache_db.py and
gui/main_window.py.  Machine 64-bit values are modelled as Nat together
with explicit reductions modulo 2 ^ 64; Python floats are modelled as
exact rationals; fallible operations return Option.  Progress callbacks
and the cooperative cancellation flag are omitted: they only truncate a
scan and never alter the value computed for the work that does run.
-/

namespace BlurCleaner

/-- Number of set bits of a natural number, computed with an explicit fuel
argument so that the definition is structural (fuel `n` always suffices
for input `n`).  Models Python `int.bit_count()`. -/
def popcountFuel : Nat → Nat → Nat
  | 0, _ => 0
  | fuel + 1, n => if n = 0 then 0 else n % 2 + popcountFuel fuel (n / 2)

/-- Popcount with sufficient fuel. -/
def popcount (n : Nat) : Nat := popcountFuel n n

/-- Models `_hamming64` (fast_scan.py) and `_hamdist64` (scan.py):
the popcount of the bitwise xor. -/
def hamming64 (a b : Nat) : Nat := popcount (a ^^^ b)

/-- Inner loop of `build_similar_pairs_bktree` (fast_scan.py): compare a
fixed item `(pa, ha)` against every later item of the list, keeping the
pairs whose Hamming distance is at most `radius`. -/
def pairsWithin (pa : String) (ha : Nat) (radius : Nat) :
    List (String × Nat) → List (String × String × Nat)
  | [] => []
  | (pb, hb) :: rest =>
    let d := hamming64 ha hb
    if d ≤ radius then (pa, pb, d) :: pairsWithin pa ha radius rest
    else pairsWithin pa ha radius rest

/-- fast_scan.build_similar_pairs_bktree: the single-hash-space candidate
search.  The Python dict is modelled as its item list (dicts iterate in
insertion order and the code takes `list(hash_map.items())`). -/
def build_similar_pairs_bktree : List (String × Nat) → Nat → List (String × String × Nat)
  | [], _ => []
  | (pa, ha) :: rest, radius =>
    pairsWithin pa ha radius rest ++ build_similar_pairs_bktree rest radius

/-- Ascending sort of rationals, as performed internally by
`numpy.percentile` and by Python `sorted(values)`. -/
def sortAsc (l : List ℚ) : List ℚ := List.insertionSort (fun a b => a ≤ b) l

/-- Linear interpolation into a list at a (virtual, fractional) index, as
used by `numpy.percentile` with the default "linear" interpolation. -/
def interpAt (a : List ℚ) (pos : ℚ) : ℚ :=
  let i : Nat := (Int.toNat ⌊pos⌋)
  let x := a.getD i 0
  let y := a.getD (i + 1) x
  x + Int.fract pos * (y - x)

/-- Models `numpy.percentile(arr, p)` (default linear interpolation):
sorts the population and interpolates at virtual index `p/100*(n-1)`.
Returns `none` where numpy raises: empty input, or `p` outside [0,100]. -/
def npPercentile (scores : List ℚ) (p : ℚ) : Option ℚ :=
  if scores.isEmpty then none
  else if p < 0 ∨ 100 < p then none
  else some (interpAt (sortAsc scores) (p / 100 * ((scores.length - 1 : Nat) : ℚ)))

/-- Round-half-to-even, the semantics of Python's builtin `round`. -/
def roundHalfEven (q : ℚ) : ℤ :=
  if Int.fract q < 1 / 2 then ⌊q⌋
  else if 1 / 2 < Int.fract q then ⌊q⌋ + 1
  else if ⌊q⌋ % 2 = 0 then ⌊q⌋ else ⌊q⌋ + 1

/-- Models `BlurCleanerApp._percentile` (gui/main_window.py): nearest-rank
percentile with banker's rounding of the index; returns 0 on an empty
population. -/
def guiPercentile (values : List ℚ) (p : ℤ) : ℚ :=
  if values.isEmpty then 0
  else
    let v := sortAsc values
    let pc : ℤ := max 0 (min 100 p)
    let idx := Int.toNat (roundHalfEven ((pc : ℚ) / 100 * ((v.length - 1 : Nat) : ℚ)))
    v.getD idx 0

/-- Arithmetic mean, `numpy.ndarray.mean` (meaningful on nonempty input). -/
def meanQ (l : List ℚ) : ℚ := l.sum / l.length

/-- Models `_decide_threshold` (detectors.py).  A fixed threshold wins
outright; mode "zscore" returns mean − param·std (the population standard
deviation is irrational in general, so it is an oracle parameter `std`;
on an empty population numpy yields NaN, modelled as `none`); every other
mode is the default percentile policy. -/
def decide_threshold (std : List ℚ → ℚ) (scores : List ℚ) (fixed : Option ℚ)
    (mode : String) (param : ℚ) : Option ℚ :=
  match fixed with
  | some f => some f
  | none =>
    if mode = "zscore" then
      if scores.isEmpty then none
      else some (meanQ scores - param * std scores)
    else npPercentile scores param

/-- Threshold computation of `detect_blur_paths` (detectors.py): when no
image produced a score the function returns `{"th_ms": 0.0, "th_ten": 0.0}`
before any call to `_decide_threshold`; otherwise both thresholds are
computed (`none` models an exception escaping). -/
def detect_thresholds (std : List ℚ → ℚ) (msScores tenScores : List ℚ)
    (threshold : Option ℚ) (autoTh : String) (autoParam : ℚ)
    (tenThreshold : Option ℚ) (tenAutoTh : String) (tenAutoParam : ℚ) : Option (ℚ × ℚ) :=
  if msScores.isEmpty then some (0, 0)
  else
    match decide_threshold std msScores threshold autoTh autoParam,
          decide_threshold std tenScores tenThreshold tenAutoTh tenAutoParam with
    | some a, some b => some (a, b)
    | _, _ => none

/-- The blur flagging comparison of detectors.py (`r["score"] < th_ms`)
and scan.py (`lap < blur_threshold`): strictly below the cutoff. -/
def blurFlagged (scores : List ℚ) (cutoff : ℚ) : List ℚ :=
  scores.filter (fun x => decide (x < cutoff))

/-- Per-file metadata record built by scan.py (`metas[path]` dict entries):
size and mtime from `_file_sig`, optional pHash, optional Laplacian
variance and optional sha1 digest. -/
structure FileMeta where
  size : Nat
  mtime : ℚ
  phash : Option Nat
  lap : Option ℚ
  sha1 : Option String
deriving DecidableEq

/-- Python expression `m.get("lap") or 0.0`: a missing (or zero) score
becomes 0.0. -/
def lapD (m : FileMeta) : ℚ := m.lap.getD 0

/-- The keeper-selection sort key `metas[x].get("lap") or 0.0`. -/
def lapKey (metas : String → FileMeta) (x : String) : ℚ := lapD (metas x)

/-- The comparison realised by `members.sort(key=..., reverse=True)`:
`a` may precede `b` exactly when the key of `b` does not exceed the key of
`a`; with a stable sort this reproduces CPython's descending sort. -/
def lapDescRel (metas : String → FileMeta) (a b : String) : Prop :=
  lapKey metas b ≤ lapKey metas a

instance (metas : String → FileMeta) : DecidableRel (lapDescRel metas) :=
  fun a b => inferInstanceAs (Decidable (lapKey metas b ≤ lapKey metas a))

instance (metas : String → FileMeta) : IsTotal String (lapDescRel metas) :=
  ⟨fun a b => (le_total (lapKey metas a) (lapKey metas b)).symm⟩

instance (metas : String → FileMeta) : IsTrans String (lapDescRel metas) :=
  ⟨fun _ _ _ h1 h2 => le_trans h2 h1⟩

/-- scan.py `members.sort(key=lambda x: metas[x].get("lap") or 0.0,
reverse=True)`: a stable descending sort on the blur score. -/
def sortLapDesc (metas : String → FileMeta) (members : List String) : List String :=
  List.insertionSort (lapDescRel metas) members

/-- One emitted "visual" (duplicate-group) row of scan.py.  The textual
`relation` field is carried as its structured components `dist`,
`lapKeep`, `lapCand`; the group id is the numeric counter behind the
`grp%06d` label (that formatting is injective). -/
structure VisRow where
  group : Nat
  keep : String
  candidate : String
  dist : Option Nat
  lapKeep : ℚ
  lapCand : ℚ
deriving DecidableEq

/-- The `dist` computation of scan.py lines 258-261: present only when
both the keeper and the candidate have a pHash. -/
def distOf (metas : String → FileMeta) (keep cand : String) : Option Nat :=
  match (metas keep).phash, (metas cand).phash with
  | some kh, some ch => some (hamming64 kh ch)
  | _, _ => none

/-- Rows emitted for one duplicate group (scan.py lines 250-273): sort the
members by descending blur score, keep the head, emit one row per
remaining member. -/
def groupRows (metas : String → FileMeta) (gid : Nat) (members : List String) : List VisRow :=
  match sortLapDesc metas members with
  | [] => []
  | keep :: cands =>
    cands.map (fun cand =>
      ⟨gid, keep, cand, distOf metas keep cand, lapKey metas keep, lapKey metas cand⟩)

/-- The group loop of scan.py lines 246-273: singleton components are
skipped and do not consume a group id; the counter advances only for
emitted groups. -/
def rowsFromGroups (metas : String → FileMeta) : Nat → List (List String) → List VisRow
  | _, [] => []
  | gid, g :: gs =>
    if g.length ≤ 1 then rowsFromGroups metas gid gs
    else groupRows metas gid g ++ rowsFromGroups metas (gid + 1) gs

/-- First-occurrence deduplication with an accumulator of already seen
keys; models the key set of the Python dict `groups` in insertion
order. -/
def dedupAcc : List String → List String → List String
  | _, [] => []
  | seen, x :: xs => if x ∈ seen then dedupAcc seen xs else x :: dedupAcc (x :: seen) xs

/-- The group collection of scan.py lines 240-243
(`groups.setdefault(find(p), []).append(p)`): for each distinct root, in
first-occurrence order, the members of `ps` having that root.  The
union-find `find` is abstracted as the function `root`. -/
def fibers (ps : List String) (root : String → String) : List (List String) :=
  (dedupAcc [] (ps.map root)).map (fun r => ps.filter (fun p => root p == r))

/-- The complete visual-rows stage of scan.py for a given union-find
result: group the metadata keys `ps` by `root` and emit the rows, group
ids starting at 1. -/
def scanVisualRows (ps : List String) (root : String → String)
    (metas : String → FileMeta) : List VisRow :=
  rowsFromGroups metas 1 (fibers ps root)

/-- One emitted "blur_single" row of scan.py; `lapVar` is the value shown
in the `relation` text. -/
structure BlurRow where
  candidate : String
  lapVar : ℚ
deriving DecidableEq

/-- The blur-row loop of scan.py lines 180-191: every path whose
(defaulted) Laplacian variance is strictly below the threshold yields a
row, in metas order. -/
def scanBlurRows (metas : List (String × FileMeta)) (blurThreshold : ℚ) : List BlurRow :=
  metas.filterMap (fun pm =>
    let lap := lapD pm.2
    if lap < blurThreshold then some ⟨pm.1, lap⟩ else none)

/-- Modelled from the spec: the keeper-priority tuple comparison
`(blur_score desc, pixel_count desc, file_size desc, modified_time desc)`
of section 4.5, deciding priority(x) ≥ priority(y) lexicographically.
The pixel count does not occur in scan.py's metadata, so it is supplied
by the oracle `pixels`. -/
def specPriorityGeB (metas : String → FileMeta) (pixels : String → Nat)
    (x y : String) : Bool :=
  if lapD (metas x) ≠ lapD (metas y) then decide (lapD (metas y) < lapD (metas x))
  else if pixels x ≠ pixels y then decide (pixels y < pixels x)
  else if (metas x).size ≠ (metas y).size then decide ((metas y).size < (metas x).size)
  else if (metas x).mtime ≠ (metas y).mtime then decide ((metas y).mtime < (metas x).mtime)
  else true

/-- One row of the `files` table of cache_db.py (path is the key it is
stored under; hashes are stored as hexadecimal text). -/
structure FilesRow where
  mtime : Int
  size : Int
  blur : Option ℚ
  phash : Option String
  dhash : Option String
  lastSeen : Int
deriving DecidableEq

/-- The cache database state: the `files` table as a partial map from
path to row, together with the sqlite3 connection-wide
`Connection.total_changes` counter (total rows modified, inserted or
deleted since the connection was opened). -/
structure CacheDB where
  rows : String → Option FilesRow
  totalChanges : Nat

/-- A cache database with no rows on a fresh connection. -/
def dbEmpty : CacheDB := ⟨fun _ => none, 0⟩

/-- Hexadecimal digit value of a character, lowercase or uppercase;
`none` for a non-hex character. -/
def hexDigitVal (c : Char) : Option Nat :=
  if 48 ≤ c.toNat ∧ c.toNat ≤ 57 then some (c.toNat - 48)
  else if 97 ≤ c.toNat ∧ c.toNat ≤ 102 then some (c.toNat - 87)
  else if 65 ≤ c.toNat ∧ c.toNat ≤ 70 then some (c.toNat - 55)
  else none

/-- Accumulating hexadecimal parse of a character list. -/
def parseHexCore : List Char → Nat → Option Nat
  | [], acc => some acc
  | c :: cs, acc =>
    match hexDigitVal c with
    | some v => parseHexCore cs (acc * 16 + v)
    | none => none

/-- Models `int(str(row[2]), 16)` for the plain lowercase/uppercase
hexadecimal strings the cache itself writes (sign, whitespace, `0x` and
underscore forms, which Python would also accept, never occur in values
written by `upsert_phash`/`upsert_dhash`); `none` models `ValueError`. -/
def parseHex (s : String) : Option Nat :=
  match s.data with
  | [] => none
  | cs => parseHexCore cs 0

/-- Per-path freshness classification of `CacheDB.get_cached_phash`
(cache_db.py lines 98-107): the stored row is usable exactly when it
exists, its `(mtime, size)` equal the current values, the `phash` column
is non-null and parses as hexadecimal; the value is masked to 64 bits. -/
def phashFresh (db : String → Option FilesRow) (p : String) (m s : Int) : Option Nat :=
  match db p with
  | none => none
  | some row =>
    if row.mtime = m ∧ row.size = s then
      match row.phash with
      | none => none
      | some hs =>
        match parseHex hs with
        | none => none
        | some hv => some (hv % 2 ^ 64)
    else none

/-- `CacheDB.get_cached_phash`: split the requested `(path, mtime, size)`
triples into the paths that need recomputation and the cached hash
values, both in request order. -/
def get_cached_phash (db : String → Option FilesRow) :
    List (String × Int × Int) → List String × List (String × Nat)
  | [] => ([], [])
  | (p, m, s) :: rest =>
    let prev := get_cached_phash db rest
    match phashFresh db p m s with
    | none => (p :: prev.1, prev.2)
    | some hv => (prev.1, (p, hv) :: prev.2)

/-- Lowercase hexadecimal digit character. -/
def hexChar (n : Nat) : Char :=
  if n < 10 then Char.ofNat (48 + n) else Char.ofNat (87 + n)

/-- Fixed-width big-endian hexadecimal digits of `n`. -/
def hexDigitsAux : Nat → Nat → List Char
  | 0, _ => []
  | k + 1, n => hexDigitsAux k (n / 16) ++ [hexChar (n % 16)]

/-- Models the Python format `f"{h & mask:016x}"` used by the upserts. -/
def toHex64 (h : Nat) : String := String.mk (hexDigitsAux 16 (h % 2 ^ 64))

/-- One iteration of `CacheDB.upsert_blur` (cache_db.py lines 84-89):
`INSERT ... ON CONFLICT(path) DO UPDATE SET mtime, size, blur, last_seen`;
an existing row keeps its `phash` and `dhash` columns. -/
def upsertBlurOne (now : Int) (db : CacheDB) (r : String × Int × Int × ℚ) : CacheDB :=
  match r with
  | (p, m, s, v) =>
    match db.rows p with
    | some old =>
      ⟨fun q => if q = p then
          some { old with mtime := m, size := s, blur := some v, lastSeen := now }
        else db.rows q,
        db.totalChanges + 1⟩
    | none =>
      ⟨fun q => if q = p then some ⟨m, s, some v, none, none, now⟩ else db.rows q,
        db.totalChanges + 1⟩

/-- `CacheDB.upsert_blur`. -/
def upsert_blur (db : CacheDB) (now : Int) (rows : List (String × Int × Int × ℚ)) : CacheDB :=
  rows.foldl (upsertBlurOne now) db

/-- One iteration of `CacheDB.upsert_phash` (cache_db.py lines 113-123):
`UPDATE files SET phash=?, last_seen=? WHERE path=?`, then — only when
`self.conn.total_changes == 0`, the connection-wide counter the source
actually tests, not the row count of that UPDATE — a fallback
`INSERT OR REPLACE` with zeroed signature. -/
def upsertPhashOne (now : Int) (db : CacheDB) (r : String × Nat) : CacheDB :=
  match r with
  | (p, h) =>
    let hx := toHex64 h
    match db.rows p with
    | some old =>
      ⟨fun q => if q = p then some { old with phash := some hx, lastSeen := now }
          else db.rows q,
        db.totalChanges + 1⟩
    | none =>
      if db.totalChanges = 0 then
        ⟨fun q => if q = p then some ⟨0, 0, none, some hx, none, now⟩ else db.rows q,
          db.totalChanges + 1⟩
      else db

/-- `CacheDB.upsert_phash`. -/
def upsert_phash (db : CacheDB) (now : Int) (rows : List (String × Nat)) : CacheDB :=
  rows.foldl (upsertPhashOne now) db

/-- One iteration of `CacheDB.upsert_dhash` (cache_db.py lines 147-157),
with the same connection-wide `total_changes` fallback test. -/
def upsertDhashOne (now : Int) (db : CacheDB) (r : String × Nat) : CacheDB :=
  match r with
  | (p, h) =>
    let hx := toHex64 h
    match db.rows p with
    | some old =>
      ⟨fun q => if q = p then some { old with dhash := some hx, lastSeen := now }
          else db.rows q,
        db.totalChanges + 1⟩
    | none =>
      if db.totalChanges = 0 then
        ⟨fun q => if q = p then some ⟨0, 0, none, none, some hx, now⟩ else db.rows q,
          db.totalChanges + 1⟩
      else db

/-- `CacheDB.upsert_dhash`. -/
def upsert_dhash (db : CacheDB) (now : Int) (rows : List (String × Nat)) : CacheDB :=
  rows.foldl (upsertDhashOne now) db

/-- The loop body of `ssim_filter_pairs` (fast_scan.py lines 190-205) for
one pair: decode both images (failure, including an exception, drops the
pair: `continue` / `except: pass`) and keep the pair when the structural
similarity of the resized grayscale images reaches the threshold.
`decode` models `cv2.imdecode` of the file contents and `ssimOf` the
composite `_ssim_gray(_resize ia, _resize ib)`, both oracles over an
abstract image type. -/
def ssimKeep {Img : Type} (decode : String → Option Img) (ssimOf : Img → Img → ℚ)
    (thresh : ℚ) (a b : String) : Bool :=
  match decode a, decode b with
  | some ia, some ib => decide (thresh ≤ ssimOf ia ib)
  | _, _ => false

/-- fast_scan.ssim_filter_pairs: with cv2 missing the input is returned
unchanged; otherwise only the first `maxPairs` pairs are examined and the
survivors among them are appended to `out` in order — which is exactly a
filter of the truncated list. -/
def ssim_filter_pairs {Img : Type} (cv2Present : Bool) (decode : String → Option Img)
    (ssimOf : Img → Img → ℚ) (pairs : List (String × String × Nat))
    (maxPairs : Nat) (thresh : ℚ) : List (String × String × Nat) :=
  if cv2Present then
    (pairs.take maxPairs).filter (fun t => ssimKeep decode ssimOf thresh t.1 t.2.1)
  else pairs

/-- Concrete metadata used in the keeper-selection analysis: two files
with equal blur score, file "b" larger than file "a". -/
def metasC5 : String → FileMeta := fun p =>
  if p = "b" then ⟨2, 0, none, some 5, none⟩ else ⟨1, 0, none, some 5, none⟩

/-- Concrete metadata with no blur score recorded. -/
def metaNoLap : FileMeta := ⟨0, 0, none, none, none⟩

/-- Concrete metadata: path "r" has a positive blur score, others none. -/
def metasC10 : String → FileMeta := fun p =>
  if p = "r" then ⟨0, 0, none, some 1, none⟩ else metaNoLap

/-- Concrete cache row used in the lookup-freshness analysis. -/
def rowC3 : FilesRow := ⟨1, 2, none, some "ff", none, 0⟩

/-- Concrete single-row cache table used in the lookup-freshness
analysis. -/
def dbC3 : String → Option FilesRow := fun p => if p = "a" then some rowC3 else none

/-! ## Helper lemmas -/

lemma mem_pairsWithin {pa : String} {ha radius : Nat} {l : List (String × Nat)}
    {t : String × String × Nat} (ht : t ∈ pairsWithin pa ha radius l) :
    ∃ pb hb, (pb, hb) ∈ l ∧ t = (pa, pb, hamming64 ha hb) ∧ hamming64 ha hb ≤ radius := by
  induction l with
  | nil => cases ht
  | cons hd tl ih =>
    obtain ⟨pb, hb⟩ := hd
    by_cases hr : hamming64 ha hb ≤ radius
    · rw [pairsWithin, if_pos hr] at ht
      rcases List.mem_cons.mp ht with heq | htl
      · exact ⟨pb, hb, List.mem_cons_self _ _, heq, hr⟩
      · obtain ⟨pb2, hb2, hm, he, hle⟩ := ih htl
        exact ⟨pb2, hb2, List.mem_cons_of_mem _ hm, he, hle⟩
    · rw [pairsWithin, if_neg hr] at ht
      obtain ⟨pb2, hb2, hm, he, hle⟩ := ih ht
      exact ⟨pb2, hb2, List.mem_cons_of_mem _ hm, he, hle⟩

lemma mem_keys_of_lookup {l : List (String × Nat)} {p : String} {v : Nat}
    (h : l.lookup p = some v) : p ∈ l.map (fun t => t.1) := by
  induction l with
  | nil => simp [List.lookup] at h
  | cons hd tl ih =>
    obtain ⟨q, hv⟩ := hd
    by_cases hq : q = p
    · simp [hq]
    · have hb : (p == q) = false := beq_eq_false_iff_ne.mpr (fun e => hq e.symm)
      simp only [List.lookup, hb] at h
      simp only [List.map_cons, List.mem_cons]
      exact Or.inr (ih h)

lemma lookup_eq_of_mem_of_nodup {l : List (String × Nat)} {p : String} {h : Nat}
    (hnd : (l.map (fun t => t.1)).Nodup) (hm : (p, h) ∈ l) : l.lookup p = some h := by
  induction l with
  | nil => cases hm
  | cons hd tl ih =>
    obtain ⟨q, hv⟩ := hd
    simp only [List.map_cons, List.nodup_cons] at hnd
    rcases List.mem_cons.mp hm with heq | htl
    · cases heq
      simp [List.lookup]
    · have hpq : q ≠ p := by
        intro e
        exact hnd.1 (e ▸ List.mem_map.mpr ⟨(p, h), htl, rfl⟩)
      have hb : (p == q) = false := beq_eq_false_iff_ne.mpr (fun e => hpq e.symm)
      simp [List.lookup, hb, ih hnd.2 htl]

lemma ssimKeep_iff {Img : Type} (decode : String → Option Img) (ssimOf : Img → Img → ℚ)
    (thresh : ℚ) (a b : String) :
    ssimKeep decode ssimOf thresh a b = true ↔
      ∃ ia ib, decode a = some ia ∧ decode b = some ib ∧ thresh ≤ ssimOf ia ib := by
  unfold ssimKeep
  cases hda : decode a <;> cases hdb : decode b <;> simp [hda, hdb]

lemma ssim_filter_pairs_true_eq {Img : Type} (decode : String → Option Img)
    (ssimOf : Img → Img → ℚ) (pairs : List (String × String × Nat))
    (maxPairs : Nat) (thresh : ℚ) :
    ssim_filter_pairs true decode ssimOf pairs maxPairs thresh =
      (pairs.take maxPairs).filter (fun t => ssimKeep decode ssimOf thresh t.1 t.2.1) := rfl

lemma phashFresh_sound {db : String → Option FilesRow} {p : String} {m s : Int} {v : Nat}
    (h : phashFresh db p m s = some v) :
    ∃ row hs hv, db p = some row ∧ row.mtime = m ∧ row.size = s ∧
      row.phash = some hs ∧ parseHex hs = some hv ∧ v = hv % 2 ^ 64 := by
  unfold phashFresh at h
  cases hdb : db p with
  | none => rw [hdb] at h; cases h
  | some row =>
    rw [hdb] at h
    simp only at h
    by_cases hsig : row.mtime = m ∧ row.size = s
    · rw [if_pos hsig] at h
      cases hph : row.phash with
      | none => rw [hph] at h; cases h
      | some hs =>
        rw [hph] at h
        simp only at h
        cases hpx : parseHex hs with
        | none => rw [hpx] at h; cases h
        | some hv =>
          rw [hpx] at h
          simp only [Option.some.injEq] at h
          exact ⟨row, hs, hv, rfl, hsig.1, hsig.2, hph, hpx, h.symm⟩
    · rw [if_neg hsig] at h; cases h

lemma phashFresh_complete {db : String → Option FilesRow} {p : String} {m s : Int}
    {row : FilesRow} {hs : String} {hv : Nat}
    (hdb : db p = some row) (hm : row.mtime = m) (hsz : row.size = s)
    (hph : row.phash = some hs) (hpx : parseHex hs = some hv) :
    phashFresh db p m s = some (hv % 2 ^ 64) := by
  simp [phashFresh, hdb, hm, hsz, hph, hpx]

lemma get_cached_phash_need_sub {db : String → Option FilesRow} :
    ∀ (l : List (String × Int × Int)) {q : String},
      q ∈ (get_cached_phash db l).1 → q ∈ l.map (fun t => t.1) := by
  intro l
  induction l with
  | nil => intro q hq; cases hq
  | cons hd tl ih =>
    obtain ⟨p, m, s⟩ := hd
    intro q hq
    cases hf : phashFresh db p m s with
    | none =>
      simp only [get_cached_phash, hf] at hq
      rcases List.mem_cons.mp hq with rfl | htl
      · simp
      · simp only [List.map_cons, List.mem_cons]
        exact Or.inr (ih htl)
    | some hv =>
      simp only [get_cached_phash, hf] at hq
      simp only [List.map_cons, List.mem_cons]
      exact Or.inr (ih hq)

lemma get_cached_phash_cached_sub {db : String → Option FilesRow} :
    ∀ (l : List (String × Int × Int)) {q : String} {v : Nat},
      (q, v) ∈ (get_cached_phash db l).2 →
      ∃ m s, (q, m, s) ∈ l ∧ phashFresh db q m s = some v := by
  intro l
  induction l with
  | nil => intro q v hq; cases hq
  | cons hd tl ih =>
    obtain ⟨p, m, s⟩ := hd
    intro q v hq
    cases hf : phashFresh db p m s with
    | none =>
      simp only [get_cached_phash, hf] at hq
      obtain ⟨m2, s2, hmem, hfr⟩ := ih hq
      exact ⟨m2, s2, List.mem_cons_of_mem _ hmem, hfr⟩
    | some hv =>
      simp only [get_cached_phash, hf] at hq
      rcases List.mem_cons.mp hq with heq | htl
      · obtain ⟨rfl, rfl⟩ := Prod.mk.injEq .. ▸ heq
        exact ⟨m, s, List.mem_cons_self _ _, hf⟩
      · obtain ⟨m2, s2, hmem, hfr⟩ := ih htl
        exact ⟨m2, s2, List.mem_cons_of_mem _ hmem, hfr⟩

lemma get_cached_phash_complete {db : String → Option FilesRow} :
    ∀ (l : List (String × Int × Int)), ((l.map (fun t => t.1)).Nodup) →
      ∀ {p : String} {m s : Int} {v : Nat}, (p, m, s) ∈ l →
      phashFresh db p m s = some v →
      p ∉ (get_cached_phash db l).1 ∧ (p, v) ∈ (get_cached_phash db l).2 := by
  intro l
  induction l with
  | nil => intro _ p m s v hm; cases hm
  | cons hd tl ih =>
    obtain ⟨q, mq, sq⟩ := hd
    intro hnd p m s v hm hf
    simp only [List.map_cons, List.nodup_cons] at hnd
    rcases List.mem_cons.mp hm with heq | htl
    · cases heq
      simp only [get_cached_phash, hf]
      refine ⟨?_, List.mem_cons_self _ _⟩
      intro hmem
      exact hnd.1 (get_cached_phash_need_sub tl hmem)
    · have hkeys : p ∈ tl.map (fun t => t.1) := List.mem_map.mpr ⟨(p, m, s), htl, rfl⟩
      have hqp : q ≠ p := fun e => hnd.1 (e ▸ hkeys)
      obtain ⟨h1, h2⟩ := ih hnd.2 htl hf
      cases hfq : phashFresh db q mq sq with
      | none =>
        simp only [get_cached_phash, hfq]
        refine ⟨?_, h2⟩
        intro hmem
        rcases List.mem_cons.mp hmem with rfl | hc
        · exact hqp rfl
        · exact h1 hc
      | some hv =>
        simp only [get_cached_phash, hfq]
        exact ⟨h1, List.mem_cons_of_mem _ h2⟩

lemma sortLapDesc_perm (metas : String → FileMeta) (l : List String) :
    List.Perm (sortLapDesc metas l) l := List.perm_insertionSort _ _

lemma sortLapDesc_sorted (metas : String → FileMeta) (l : List String) :
    List.Sorted (lapDescRel metas) (sortLapDesc metas l) :=
  List.sorted_insertionSort _ _

lemma sortLapDesc_head_max {metas : String → FileMeta} {l : List String}
    {keep : String} {cands : List String} (h : sortLapDesc metas l = keep :: cands) :
    ∀ c ∈ cands, lapKey metas c ≤ lapKey metas keep := by
  have hs := sortLapDesc_sorted metas l
  rw [h] at hs
  intro c hc
  exact (List.sorted_cons.mp hs).1 c hc

lemma mem_groupRows {metas : String → FileMeta} {gid : Nat} {g : List String} {r : VisRow}
    (hr : r ∈ groupRows metas gid g) :
    ∃ keep cands, sortLapDesc metas g = keep :: cands ∧ r.group = gid ∧
      r.keep = keep ∧ r.candidate ∈ cands := by
  unfold groupRows at hr
  cases hsort : sortLapDesc metas g with
  | nil => rw [hsort] at hr; cases hr
  | cons keep cands =>
    rw [hsort] at hr
    simp only [List.mem_map] at hr
    obtain ⟨cand, hcand, hre⟩ := hr
    subst hre
    exact ⟨keep, cands, rfl, rfl, rfl, hcand⟩

lemma groupRows_group_eq {metas : String → FileMeta} {gid : Nat} {g : List String}
    {r : VisRow} (hr : r ∈ groupRows metas gid g) : r.group = gid := by
  obtain ⟨_, _, _, h, _, _⟩ := mem_groupRows hr
  exact h

lemma groupRows_keep_mem {metas : String → FileMeta} {gid : Nat} {g : List String}
    {r : VisRow} (hr : r ∈ groupRows metas gid g) : r.keep ∈ g := by
  obtain ⟨keep, cands, hsort, _, hkeep, _⟩ := mem_groupRows hr
  rw [hkeep]
  refine (sortLapDesc_perm metas g).subset ?_
  rw [hsort]
  exact List.mem_cons_self _ _

lemma groupRows_cand_mem {metas : String → FileMeta} {gid : Nat} {g : List String}
    {r : VisRow} (hr : r ∈ groupRows metas gid g) : r.candidate ∈ g := by
  obtain ⟨keep, cands, hsort, _, _, hcand⟩ := mem_groupRows hr
  refine (sortLapDesc_perm metas g).subset ?_
  rw [hsort]
  exact List.mem_cons_of_mem _ hcand

lemma groupRows_keep_ne_cand {metas : String → FileMeta} {gid : Nat} {g : List String}
    {r : VisRow} (hg : g.Nodup) (hr : r ∈ groupRows metas gid g) :
    r.keep ≠ r.candidate := by
  obtain ⟨keep, cands, hsort, _, hkeep, hcand⟩ := mem_groupRows hr
  have hnd : (keep :: cands).Nodup := by
    rw [← hsort]
    exact ((sortLapDesc_perm metas g).nodup_iff).mpr hg
  rw [hkeep]
  intro e
  rw [List.nodup_cons] at hnd
  exact hnd.1 (e ▸ hcand)

lemma rowsFromGroups_group_lb (metas : String → FileMeta) :
    ∀ (gid : Nat) (gs : List (List String)) (r : VisRow),
      r ∈ rowsFromGroups metas gid gs → gid ≤ r.group := by
  intro gid gs
  induction gs generalizing gid with
  | nil => intro r hr; cases hr
  | cons g gs ih =>
    intro r hr
    rw [rowsFromGroups] at hr
    by_cases hg : g.length ≤ 1
    · rw [if_pos hg] at hr
      exact ih gid r hr
    · rw [if_neg hg] at hr
      rcases List.mem_append.mp hr with h1 | h2
      · exact (groupRows_group_eq h1).ge
      · exact le_trans (Nat.le_succ gid) (ih (gid + 1) r h2)

lemma mem_rowsFromGroups (metas : String → FileMeta) :
    ∀ (gid : Nat) (gs : List (List String)) (r : VisRow),
      r ∈ rowsFromGroups metas gid gs →
      ∃ g ∈ gs, 2 ≤ g.length ∧ r ∈ groupRows metas r.group g := by
  intro gid gs
  induction gs generalizing gid with
  | nil => intro r hr; cases hr
  | cons g gs ih =>
    intro r hr
    rw [rowsFromGroups] at hr
    by_cases hg : g.length ≤ 1
    · rw [if_pos hg] at hr
      obtain ⟨g2, hg2, hlen, hrg⟩ := ih gid r hr
      exact ⟨g2, List.mem_cons_of_mem _ hg2, hlen, hrg⟩
    · rw [if_neg hg] at hr
      rcases List.mem_append.mp hr with h1 | h2
      · have hgid := groupRows_group_eq h1
        refine ⟨g, List.mem_cons_self _ _, by omega, ?_⟩
        rw [hgid]
        exact h1
      · obtain ⟨g2, hg2, hlen, hrg⟩ := ih (gid + 1) r h2
        exact ⟨g2, List.mem_cons_of_mem _ hg2, hlen, hrg⟩

lemma rowsFromGroups_same_group (metas : String → FileMeta) :
    ∀ (gid : Nat) (gs : List (List String)) (r r2 : VisRow),
      r ∈ rowsFromGroups metas gid gs → r2 ∈ rowsFromGroups metas gid gs →
      r.group = r2.group →
      ∃ g ∈ gs, r ∈ groupRows metas r.group g ∧ r2 ∈ groupRows metas r.group g := by
  intro gid gs
  induction gs generalizing gid with
  | nil => intro r r2 hr; cases hr
  | cons g gs ih =>
    intro r r2 hr hr2 heq
    rw [rowsFromGroups] at hr hr2
    by_cases hg : g.length ≤ 1
    · rw [if_pos hg] at hr hr2
      obtain ⟨g2, hg2, h1, h2⟩ := ih gid r r2 hr hr2 heq
      exact ⟨g2, List.mem_cons_of_mem _ hg2, h1, h2⟩
    · rw [if_neg hg] at hr hr2
      rcases List.mem_append.mp hr with ha | hb <;>
        rcases List.mem_append.mp hr2 with hc | hd
      · have hgid := groupRows_group_eq ha
        refine ⟨g, List.mem_cons_self _ _, ?_, ?_⟩
        · rw [hgid]; exact ha
        · rw [hgid]; exact hc
      · exfalso
        have h1 := groupRows_group_eq ha
        have h2 := rowsFromGroups_group_lb metas (gid + 1) gs r2 hd
        omega
      · exfalso
        have h1 := groupRows_group_eq hc
        have h2 := rowsFromGroups_group_lb metas (gid + 1) gs r hb
        omega
      · obtain ⟨g2, hg2, h1, h2⟩ := ih (gid + 1) r r2 hb hd heq
        exact ⟨g2, List.mem_cons_of_mem _ hg2, h1, h2⟩

lemma rowsFromGroups_cand_unique (metas : String → FileMeta) :
    ∀ (gid : Nat) (gs : List (List String)),
      List.Pairwise (fun g1 g2 => ∀ p, p ∈ g1 → p ∈ g2 → False) gs →
      ∀ (r r2 : VisRow), r ∈ rowsFromGroups metas gid gs →
        r2 ∈ rowsFromGroups metas gid gs →
        r.candidate = r2.candidate → r.group = r2.group := by
  intro gid gs
  induction gs generalizing gid with
  | nil => intro _ r r2 hr; cases hr
  | cons g gs ih =>
    intro hpw r r2 hr hr2 hcand
    rw [List.pairwise_cons] at hpw
    rw [rowsFromGroups] at hr hr2
    by_cases hg : g.length ≤ 1
    · rw [if_pos hg] at hr hr2
      exact ih gid hpw.2 r r2 hr hr2 hcand
    · rw [if_neg hg] at hr hr2
      rcases List.mem_append.mp hr with ha | hb <;>
        rcases List.mem_append.mp hr2 with hc | hd
      · rw [groupRows_group_eq ha, groupRows_group_eq hc]
      · exfalso
        have hm1 : r.candidate ∈ g := groupRows_cand_mem ha
        obtain ⟨g2, hg2, _, hrg2⟩ := mem_rowsFromGroups metas (gid + 1) gs r2 hd
        have hm2 : r2.candidate ∈ g2 := groupRows_cand_mem hrg2
        rw [← hcand] at hm2
        exact hpw.1 g2 hg2 r.candidate hm1 hm2
      · exfalso
        have hm1 : r2.candidate ∈ g := groupRows_cand_mem hc
        obtain ⟨g2, hg2, _, hrg2⟩ := mem_rowsFromGroups metas (gid + 1) gs r hb
        have hm2 : r.candidate ∈ g2 := groupRows_cand_mem hrg2
        rw [hcand] at hm2
        exact hpw.1 g2 hg2 r2.candidate hm1 hm2
      · exact ih (gid + 1) hpw.2 r r2 hb hd hcand

lemma mem_dedupAcc : ∀ (l seen : List String) {x : String},
    x ∈ dedupAcc seen l → x ∈ l ∧ x ∉ seen := by
  intro l
  induction l with
  | nil => intro seen x hx; cases hx
  | cons y ys ih =>
    intro seen x hx
    rw [dedupAcc] at hx
    by_cases hy : y ∈ seen
    · rw [if_pos hy] at hx
      obtain ⟨h1, h2⟩ := ih seen hx
      exact ⟨List.mem_cons_of_mem _ h1, h2⟩
    · rw [if_neg hy] at hx
      rcases List.mem_cons.mp hx with rfl | hx2
      · exact ⟨List.mem_cons_self _ _, hy⟩
      · obtain ⟨h1, h2⟩ := ih (y :: seen) hx2
        exact ⟨List.mem_cons_of_mem _ h1, fun hc => h2 (List.mem_cons_of_mem _ hc)⟩

lemma dedupAcc_nodup : ∀ (l seen : List String), (dedupAcc seen l).Nodup := by
  intro l
  induction l with
  | nil => intro seen; exact List.nodup_nil
  | cons y ys ih =>
    intro seen
    rw [dedupAcc]
    by_cases hy : y ∈ seen
    · rw [if_pos hy]; exact ih seen
    · rw [if_neg hy]
      rw [List.nodup_cons]
      refine ⟨?_, ih (y :: seen)⟩
      intro hc
      exact (mem_dedupAcc ys (y :: seen) hc).2 (List.mem_cons_self _ _)

lemma mem_fiber_iff {ps : List String} {root : String → String} {rt p : String} :
    p ∈ ps.filter (fun q => root q == rt) ↔ p ∈ ps ∧ root p = rt := by
  simp [List.mem_filter]

lemma fibers_disjoint (ps : List String) (root : String → String) :
    List.Pairwise (fun g1 g2 => ∀ p, p ∈ g1 → p ∈ g2 → False) (fibers ps root) := by
  unfold fibers
  rw [List.pairwise_map]
  refine (dedupAcc_nodup (ps.map root) []).imp ?_
  intro a b hab p hpa hpb
  exact hab ((mem_fiber_iff.mp hpa).2.symm.trans (mem_fiber_iff.mp hpb).2)

lemma fibers_mem_nodup {ps : List String} {root : String → String} {g : List String}
    (hnd : ps.Nodup) (hg : g ∈ fibers ps root) : g.Nodup := by
  unfold fibers at hg
  obtain ⟨rt, _, hfe⟩ := List.mem_map.mp hg
  rw [← hfe]
  exact hnd.filter _

/-! ## Claim theorems -/

/-- C1 (confirmed): every triple `(a, b, d)` returned by the
single-hash-space candidate search `build_similar_pairs_bktree` satisfies
`d = hamming64 (hash a) (hash b)` for the hashes the input maps the two
paths to, and `d ≤ radius` — the search never emits a false positive. -/
theorem bucketer_soundness (items : List (String × Nat)) (radius : Nat)
    (hnd : (items.map (fun t => t.1)).Nodup) :
    ∀ t ∈ build_similar_pairs_bktree items radius,
      ∃ ha hb, items.lookup t.1 = some ha ∧ items.lookup t.2.1 = some hb ∧
        t.2.2 = hamming64 ha hb ∧ t.2.2 ≤ radius := by
  induction items with
  | nil => intro t ht; cases ht
  | cons hd rest ih =>
    obtain ⟨pa, ha⟩ := hd
    intro t ht
    simp only [List.map_cons, List.nodup_cons] at hnd
    rw [build_similar_pairs_bktree] at ht
    rcases List.mem_append.mp ht with hin | hrec
    · obtain ⟨pb, hb, hmem, hteq, hle⟩ := mem_pairsWithin hin
      subst hteq
      refine ⟨ha, hb, ?_, ?_, rfl, hle⟩
      · simp [List.lookup]
      · have hpb : pb ∈ rest.map (fun t => t.1) := List.mem_map.mpr ⟨(pb, hb), hmem, rfl⟩
        have hne : (pb == pa) = false :=
          beq_eq_false_iff_ne.mpr (fun e => hnd.1 (e ▸ hpb))
        simp only [List.lookup, hne]
        exact lookup_eq_of_mem_of_nodup hnd.2 hmem
    · obtain ⟨ha2, hb2, h1, h2, h3, h4⟩ := ih hnd.2 t hrec
      have k1 := mem_keys_of_lookup h1
      have k2 := mem_keys_of_lookup h2
      have n1 : (t.1 == pa) = false := beq_eq_false_iff_ne.mpr (fun e => hnd.1 (e ▸ k1))
      have n2 : (t.2.1 == pa) = false := beq_eq_false_iff_ne.mpr (fun e => hnd.1 (e ▸ k2))
      refine ⟨ha2, hb2, ?_, ?_, h3, h4⟩
      · simp only [List.lookup, n1]; exact h1
      · simp only [List.lookup, n2]; exact h2

/-- Witness for `bucketer_soundness` at a concrete two-element hash map. -/
theorem bucketer_soundness_witness :
    ∃ ha hb, ([("a", 0), ("b", 3)] : List (String × Nat)).lookup "a" = some ha ∧
      ([("a", 0), ("b", 3)] : List (String × Nat)).lookup "b" = some hb ∧
      2 = hamming64 ha hb ∧ 2 ≤ 6 :=
  bucketer_soundness [("a", 0), ("b", 3)] 6 (by decide) ("a", "b", 2) (by decide)

attribute [local semireducible] Rat.mul Rat.inv Rat.add Rat.sub in
/-- C2 (counterexample): on the population `[50, 80, 95, 400, 900]` the
percentile(20) policy of `_decide_threshold` yields exactly 74 (linear
interpolation), and the GUI nearest-rank `_percentile` yields 80; neither
is 68, refuting the claimed cutoff of approximately 68. -/
theorem percentile_scenario_counterexample :
    decide_threshold (fun _ => 0) [50, 80, 95, 400, 900] none "percentile" 20 = some 74 ∧
    guiPercentile [50, 80, 95, 400, 900] 20 = 80 ∧
    (74 : ℚ) ≠ 68 ∧ (80 : ℚ) ≠ 68 := by
  refine ⟨?_, ?_, by decide, by decide⟩
  · decide
  · decide

attribute [local semireducible] Rat.mul Rat.inv Rat.add Rat.sub in
/-- C2 (amended): on the population `[50, 80, 95, 400, 900]` the
percentile(20) cutoff is 74 under `_decide_threshold` (80 under the GUI
nearest-rank variant), and in either case exactly the file with score 50
falls strictly below the cutoff and is flagged blurry. -/
theorem percentile_scenario_amended :
    decide_threshold (fun _ => 0) [50, 80, 95, 400, 900] none "percentile" 20 = some 74 ∧
    blurFlagged [50, 80, 95, 400, 900] 74 = [50] ∧
    guiPercentile [50, 80, 95, 400, 900] 20 = 80 ∧
    blurFlagged [50, 80, 95, 400, 900] 80 = [50] := by
  refine ⟨?_, by decide, ?_, by decide⟩
  · decide
  · decide

/-- C3 (confirmed): a cached pHash is used in place of re-extraction only
if the stored `(mtime, size)` exactly equal the requested ones and the
stored feature is non-null (and parses), and the value handed back is the
stored one; conversely a path whose stored signature matches and whose
feature is present is not scheduled for recomputation and receives
exactly the cached value. -/
theorem cache_lookup_freshness (db : String → Option FilesRow)
    (metas : List (String × Int × Int)) (hnd : (metas.map (fun t => t.1)).Nodup) :
    (∀ p v, (p, v) ∈ (get_cached_phash db metas).2 →
      ∃ m s row hs hv, (p, m, s) ∈ metas ∧ db p = some row ∧ row.mtime = m ∧
        row.size = s ∧ row.phash = some hs ∧ parseHex hs = some hv ∧ v = hv % 2 ^ 64) ∧
    (∀ p m s row hs hv, (p, m, s) ∈ metas → db p = some row → row.mtime = m →
      row.size = s → row.phash = some hs → parseHex hs = some hv →
      p ∉ (get_cached_phash db metas).1 ∧ (p, hv % 2 ^ 64) ∈ (get_cached_phash db metas).2) := by
  constructor
  · intro p v hmem
    obtain ⟨m, s, hms, hf⟩ := get_cached_phash_cached_sub metas hmem
    obtain ⟨row, hs, hv, hdb, hm, hsz, hph, hpx, hveq⟩ := phashFresh_sound hf
    exact ⟨m, s, row, hs, hv, hms, hdb, hm, hsz, hph, hpx, hveq⟩
  · intro p m s row hs hv hms hdb hm hsz hph hpx
    exact get_cached_phash_complete metas hnd hms (phashFresh_complete hdb hm hsz hph hpx)

/-- Witness for `cache_lookup_freshness` at a concrete one-row cache. -/
theorem cache_lookup_freshness_witness :
    ¬ ("a" ∈ (get_cached_phash dbC3 [("a", 1, 2)]).1) ∧
      ("a", 255) ∈ (get_cached_phash dbC3 [("a", 1, 2)]).2 :=
  (cache_lookup_freshness dbC3 [("a", 1, 2)] (by decide)).2
    "a" 1 2 rowC3 "ff" 255 (by decide) (by decide) rfl rfl rfl (by decide)

/-- C4 (code bug): `upsert_phash` tests the connection-wide
`total_changes` counter instead of the row count of its UPDATE, so once
any earlier write happened on the connection, upserting a pHash for a
path that has no row silently writes nothing — the value is not
subsequently readable.  On a fresh connection the fallback insert does
run (second conjunct). -/
theorem upsert_phash_dropped_write :
    (upsert_phash (upsert_blur dbEmpty 100 [("a", 10, 20, 3)]) 100 [("b", 5)]).rows "b"
        = none ∧
    (upsert_phash dbEmpty 100 [("b", 5)]).rows "b"
        = some ⟨0, 0, none, some (toHex64 5), none, 100⟩ := by
  constructor
  · decide
  · decide

/-- C7 (counterexample): with every image decoding and a structural
similarity of 1 (above the threshold 0), the pair beyond the top-N cap
does not pass through the stage: it is dropped, contradicting the claim
that pairs outside the top-N are unaffected. -/
theorem ssim_truncation_counterexample :
    ssim_filter_pairs true (fun _ => some ()) (fun _ _ => (1 : ℚ))
        [("a", "b", 1), ("c", "d", 2)] 1 0 = [("a", "b", 1)] ∧
      ("c", "d", 2) ∉ ssim_filter_pairs true (fun _ => some ()) (fun _ _ => (1 : ℚ))
        [("a", "b", 1), ("c", "d", 2)] 1 0 := by
  constructor
  · decide
  · decide

/-- C7 (amended): with cv2 available the SSIM stage returns a sublist of
the first `maxPairs` input pairs; a pair among those first `maxPairs` is
kept exactly when both images decode and their structural similarity
reaches the threshold, and every pair beyond the cap is dropped. -/
theorem ssim_filter_amended {Img : Type} (decode : String → Option Img)
    (ssimOf : Img → Img → ℚ) (pairs : List (String × String × Nat))
    (maxPairs : Nat) (thresh : ℚ) :
    (ssim_filter_pairs true decode ssimOf pairs maxPairs thresh).Sublist
        (pairs.take maxPairs) ∧
    (∀ t ∈ ssim_filter_pairs true decode ssimOf pairs maxPairs thresh,
      ∃ ia ib, decode t.1 = some ia ∧ decode t.2.1 = some ib ∧ thresh ≤ ssimOf ia ib) ∧
    (∀ t ∈ pairs.take maxPairs, ∀ ia ib, decode t.1 = some ia → decode t.2.1 = some ib →
      thresh ≤ ssimOf ia ib →
      t ∈ ssim_filter_pairs true decode ssimOf pairs maxPairs thresh) := by
  rw [ssim_filter_pairs_true_eq]
  refine ⟨List.filter_sublist _, ?_, ?_⟩
  · intro t ht
    exact (ssimKeep_iff decode ssimOf thresh t.1 t.2.1).mp (List.mem_filter.mp ht).2
  · intro t ht ia ib h1 h2 h3
    exact List.mem_filter.mpr
      ⟨ht, (ssimKeep_iff decode ssimOf thresh t.1 t.2.1).mpr ⟨ia, ib, h1, h2, h3⟩⟩

/-- Witness for `ssim_filter_amended` at a concrete pair list. -/
theorem ssim_filter_amended_witness :
    ("a", "b", 0) ∈ ssim_filter_pairs true (fun _ => some ()) (fun _ _ => (1 : ℚ))
      [("a", "b", 0)] 1 0 :=
  (ssim_filter_amended (fun _ => some ()) (fun _ _ => (1 : ℚ)) [("a", "b", 0)] 1 0).2.2
    ("a", "b", 0) (by decide) () () rfl rfl (by decide)

/-- C9 (confirmed): for an empty score population the threshold stage of
`detect_blur_paths` returns both cutoffs as 0 under every policy (fixed,
percentile, zscore) and cannot raise: the empty-population guard runs
before any `_decide_threshold` call. -/
theorem empty_population_thresholds (std : List ℚ → ℚ)
    (threshold : Option ℚ) (autoTh : String) (autoParam : ℚ)
    (tenThreshold : Option ℚ) (tenAutoTh : String) (tenAutoParam : ℚ) :
    detect_thresholds std [] [] threshold autoTh autoParam
      tenThreshold tenAutoTh tenAutoParam = some (0, 0) := rfl


/-- C5 (counterexample): with two files of equal blur score where file
"b" is larger than file "a", scan.py keeps "a" (stable descending sort on
blur score only), although under the spec's full priority tuple the
candidate "b" has strictly higher priority than the keeper — refuting
`priority(keep) ≥ priority(c)` under the tuple ordering. -/
theorem keeper_priority_counterexample :
    scanVisualRows ["a", "b"] (fun _ => "a") metasC5 = [⟨1, "a", "b", none, 5, 5⟩] ∧
    specPriorityGeB metasC5 (fun _ => 0) "a" "b" = false := by
  constructor
  · decide
  · decide

/-- C5 (amended): within every duplicate group the keeper emitted by
scan.py is a member maximising the blur score alone (missing scores
counting as 0), the first such member under the stable descending sort;
`blur(keep) ≥ blur(c)` holds for every candidate `c`, but pixel count,
file size and modification time are never consulted. -/
theorem keeper_blur_priority (ps : List String) (root : String → String)
    (metas : String → FileMeta) :
    ∀ r ∈ scanVisualRows ps root metas,
      lapKey metas r.candidate ≤ lapKey metas r.keep := by
  intro r hr
  obtain ⟨g, _, _, hrg⟩ := mem_rowsFromGroups metas 1 (fibers ps root) r hr
  obtain ⟨keep, cands, hsort, _, hkeep, hcand⟩ := mem_groupRows hrg
  rw [hkeep]
  exact sortLapDesc_head_max hsort _ hcand

/-- Witness for `keeper_blur_priority` at a concrete two-file group. -/
theorem keeper_blur_priority_witness :
    lapKey metasC5 "b" ≤ lapKey metasC5 "a" :=
  keeper_blur_priority ["a", "b"] (fun _ => "a") metasC5
    ⟨1, "a", "b", none, 5, 5⟩ (by decide)

/-- C6 (confirmed): in the emitted duplicate rows the keeper of a group is
never one of its candidates, rows sharing a group id share the keeper,
no path is a candidate in two different groups, and every emitted row
comes from a connected component with at least two members (singleton
components are discarded). -/
theorem grouping_invariants (ps : List String) (root : String → String)
    (metas : String → FileMeta) (hnd : ps.Nodup) :
    (∀ r ∈ scanVisualRows ps root metas, r.keep ≠ r.candidate) ∧
    (∀ r ∈ scanVisualRows ps root metas, ∀ r2 ∈ scanVisualRows ps root metas,
      r.group = r2.group → r.keep = r2.keep) ∧
    (∀ r ∈ scanVisualRows ps root metas, ∀ r2 ∈ scanVisualRows ps root metas,
      r.candidate = r2.candidate → r.group = r2.group) ∧
    (∀ r ∈ scanVisualRows ps root metas,
      ∃ g ∈ fibers ps root, 2 ≤ g.length ∧ r.keep ∈ g ∧ r.candidate ∈ g) := by
  refine ⟨?_, ?_, ?_, ?_⟩
  · intro r hr
    obtain ⟨g, hgmem, _, hrg⟩ := mem_rowsFromGroups metas 1 (fibers ps root) r hr
    exact groupRows_keep_ne_cand (fibers_mem_nodup hnd hgmem) hrg
  · intro r hr r2 hr2 heq
    obtain ⟨g, hgmem, h1, h2⟩ :=
      rowsFromGroups_same_group metas 1 (fibers ps root) r r2 hr hr2 heq
    obtain ⟨k1, c1, hs1, _, hk1, _⟩ := mem_groupRows h1
    obtain ⟨k2, c2, hs2, _, hk2, _⟩ := mem_groupRows h2
    have hkk : k1 = k2 := by
      have := hs1.symm.trans hs2
      injection this
    rw [hk1, hk2, hkk]
  · intro r hr r2 hr2 hcand
    exact rowsFromGroups_cand_unique metas 1 (fibers ps root)
      (fibers_disjoint ps root) r r2 hr hr2 hcand
  · intro r hr
    obtain ⟨g, hgmem, hlen, hrg⟩ := mem_rowsFromGroups metas 1 (fibers ps root) r hr
    exact ⟨g, hgmem, hlen, groupRows_keep_mem hrg, groupRows_cand_mem hrg⟩

/-- Witness for `grouping_invariants` at a concrete two-file group. -/
theorem grouping_invariants_witness :
    (⟨1, "a", "b", none, 5, 5⟩ : VisRow).keep ≠
      (⟨1, "a", "b", none, 5, 5⟩ : VisRow).candidate :=
  (grouping_invariants ["a", "b"] (fun _ => "a") metasC5 (by decide)).1
    ⟨1, "a", "b", none, 5, 5⟩ (by decide)

/-- C10 (confirmed): a record whose blur score is absent is treated as
score 0.0 — it is emitted as a blur row whenever the threshold is
positive, and in keeper selection it is never sorted ahead of a member
with a positive score (in particular it is never the keeper when one
exists). -/
theorem missing_blur_score_as_zero
    (metasL : List (String × FileMeta)) (th : ℚ) (p : String) (m : FileMeta)
    (metas : String → FileMeta) (members : List String) (keep : String)
    (rest : List String) (q r : String) :
    ((p, m) ∈ metasL → m.lap = none → 0 < th →
      (⟨p, 0⟩ : BlurRow) ∈ scanBlurRows metasL th) ∧
    (sortLapDesc metas members = keep :: rest → q ∈ members → r ∈ members →
      (metas q).lap = none → 0 < lapD (metas r) → keep ≠ q) := by
  constructor
  · intro hm hlap hth
    unfold scanBlurRows
    refine List.mem_filterMap.mpr ⟨(p, m), hm, ?_⟩
    have hz : lapD m = 0 := by rw [lapD, hlap]; rfl
    simp [hz, hth]
  · intro hsort hq hr hlapq hlapr heq
    have hkeep0 : lapKey metas keep = 0 := by
      rw [heq, lapKey, lapD, hlapq]
      rfl
    have hrmem : r ∈ sortLapDesc metas members :=
      ((sortLapDesc_perm metas members).mem_iff).mpr hr
    rw [hsort] at hrmem
    rcases List.mem_cons.mp hrmem with rfl | hrrest
    · have hz : lapD (metas r) = 0 := hkeep0
      rw [hz] at hlapr
      exact lt_irrefl 0 hlapr
    · have hle := sortLapDesc_head_max hsort r hrrest
      rw [hkeep0] at hle
      exact absurd (lt_of_lt_of_le hlapr hle) (lt_irrefl 0)

/-- Witness for `missing_blur_score_as_zero` at concrete metadata. -/
theorem missing_blur_score_as_zero_witness :
    (⟨"p", 0⟩ : BlurRow) ∈ scanBlurRows [("p", metaNoLap)] 1 ∧ ("r" : String) ≠ "p" := by
  have h := missing_blur_score_as_zero [("p", metaNoLap)] 1 "p" metaNoLap
    metasC10 ["p", "r"] "r" ["p"] "p" "r"
  exact ⟨h.1 (by decide) (by decide) (by decide),
    h.2 (by decide) (by decide) (by decide) (by decide) (by decide)⟩

lemma interpAt_mono {a : List ℚ} (ha : List.Sorted (fun x y : ℚ => x ≤ y) a)
    (hne : a ≠ []) {pos1 pos2 : ℚ} (h0 : 0 ≤ pos1) (h12 : pos1 ≤ pos2)
    (hub : pos2 ≤ ((a.length - 1 : Nat) : ℚ)) :
    interpAt a pos1 ≤ interpAt a pos2 := by
  have hlen : 1 ≤ a.length := List.length_pos.mpr hne
  have hf1 : (0 : ℤ) ≤ ⌊pos1⌋ := Int.floor_nonneg.mpr h0
  have hf2 : (0 : ℤ) ≤ ⌊pos2⌋ := Int.floor_nonneg.mpr (le_trans h0 h12)
  have hff : ⌊pos1⌋ ≤ ⌊pos2⌋ := Int.floor_le_floor h12
  have hub2 : ⌊pos2⌋ ≤ ((a.length - 1 : Nat) : ℤ) := by
    have h := Int.floor_le_floor hub
    rwa [Int.floor_natCast] at h
  have hi2lt : ⌊pos2⌋.toNat < a.length := by omega
  have hi1le : ⌊pos1⌋.toNat ≤ ⌊pos2⌋.toNat := by omega
  have hi1lt : ⌊pos1⌋.toNat < a.length := lt_of_le_of_lt hi1le hi2lt
  have key : ∀ i : Nat, i < a.length → a.getD i 0 ≤ a.getD (i + 1) (a.getD i 0) := by
    intro i hi
    by_cases h2 : i + 1 < a.length
    · rw [List.getD_eq_get a 0 hi, List.getD_eq_get a _ h2]
      exact ha.rel_get_of_lt (Fin.mk_lt_mk.mpr (Nat.lt_succ_self i))
    · rw [List.getD_eq_default a _ (le_of_not_lt h2)]
  have mono : ∀ i j : Nat, i ≤ j → j < a.length → a.getD i 0 ≤ a.getD j 0 := by
    intro i j hij hj
    rcases eq_or_lt_of_le hij with rfl | hlt
    · exact le_refl _
    · rw [List.getD_eq_get a 0 (lt_trans hlt hj), List.getD_eq_get a 0 hj]
      exact ha.rel_get_of_lt (Fin.mk_lt_mk.mpr hlt)
  simp only [interpAt]
  rcases eq_or_lt_of_le hi1le with heq | hlt
  · have hfeq : ⌊pos1⌋ = ⌊pos2⌋ := by omega
    rw [← hfeq]
    have e1 : Int.fract pos1 = pos1 - ⌊pos1⌋ := rfl
    have e2 : Int.fract pos2 = pos2 - ⌊pos2⌋ := rfl
    have hfr12 : Int.fract pos1 ≤ Int.fract pos2 := by
      rw [e1, e2, hfeq]
      linarith
    have hd := key ⌊pos1⌋.toNat hi1lt
    have hmul := mul_le_mul_of_nonneg_right hfr12 (sub_nonneg.mpr hd)
    linarith
  · have h1lt : ⌊pos1⌋.toNat + 1 < a.length := by omega
    have hb1 : a.getD ⌊pos1⌋.toNat 0 + Int.fract pos1 *
        (a.getD (⌊pos1⌋.toNat + 1) (a.getD ⌊pos1⌋.toNat 0) - a.getD ⌊pos1⌋.toNat 0) ≤
        a.getD (⌊pos1⌋.toNat + 1) (a.getD ⌊pos1⌋.toNat 0) := by
      have hd := key ⌊pos1⌋.toNat hi1lt
      have hm := mul_le_mul_of_nonneg_right (le_of_lt (Int.fract_lt_one pos1))
        (sub_nonneg.mpr hd)
      linarith
    have hyx : a.getD (⌊pos1⌋.toNat + 1) (a.getD ⌊pos1⌋.toNat 0) =
        a.getD (⌊pos1⌋.toNat + 1) 0 := by
      rw [List.getD_eq_get a _ h1lt, List.getD_eq_get a 0 h1lt]
    have hmid : a.getD (⌊pos1⌋.toNat + 1) 0 ≤ a.getD ⌊pos2⌋.toNat 0 :=
      mono _ _ (by omega) hi2lt
    have hb2 : a.getD ⌊pos2⌋.toNat 0 ≤ a.getD ⌊pos2⌋.toNat 0 + Int.fract pos2 *
        (a.getD (⌊pos2⌋.toNat + 1) (a.getD ⌊pos2⌋.toNat 0) - a.getD ⌊pos2⌋.toNat 0) := by
      have hd := key ⌊pos2⌋.toNat hi2lt
      have hm := mul_nonneg (Int.fract_nonneg pos2) (sub_nonneg.mpr hd)
      linarith
    rw [hyx] at hb1 ⊢
    linarith

/-- C8 (confirmed): for a fixed nonempty score population the percentile
threshold policy (`numpy.percentile` with linear interpolation, as called
by `_decide_threshold`) is monotone in its parameter: `p1 ≤ p2` within
[0, 100] gives a cutoff for `p1` no larger than the cutoff for `p2`. -/
theorem percentile_param_monotone (scores : List ℚ) (p1 p2 : ℚ)
    (hne : scores ≠ []) (h0 : 0 ≤ p1) (h12 : p1 ≤ p2) (h100 : p2 ≤ 100) :
    ∃ c1 c2, npPercentile scores p1 = some c1 ∧ npPercentile scores p2 = some c2 ∧
      c1 ≤ c2 := by
  have hEmp : scores.isEmpty = false := by
    cases scores with
    | nil => exact absurd rfl hne
    | cons a l => rfl
  have hc1 : ¬ (p1 < 0 ∨ 100 < p1) := by
    push_neg
    exact ⟨h0, le_trans h12 h100⟩
  have hc2 : ¬ (p2 < 0 ∨ 100 < p2) := by
    push_neg
    exact ⟨le_trans h0 h12, h100⟩
  refine ⟨interpAt (sortAsc scores) (p1 / 100 * ((scores.length - 1 : Nat) : ℚ)),
          interpAt (sortAsc scores) (p2 / 100 * ((scores.length - 1 : Nat) : ℚ)),
          ?_, ?_, ?_⟩
  · simp [npPercentile, hEmp, hc1]
  · simp [npPercentile, hEmp, hc2]
  · have hsorted : List.Sorted (fun x y : ℚ => x ≤ y) (sortAsc scores) :=
      List.sorted_insertionSort _ _
    have hlen : (sortAsc scores).length = scores.length :=
      (List.perm_insertionSort _ _).length_eq
    have hsne : sortAsc scores ≠ [] := by
      intro e
      apply hne
      rw [e] at hlen
      exact List.length_eq_zero.mp hlen.symm
    apply interpAt_mono hsorted hsne
    · exact mul_nonneg (div_nonneg h0 (by norm_num)) (Nat.cast_nonneg _)
    · exact mul_le_mul_of_nonneg_right
        ((div_le_div_right (by norm_num : (0 : ℚ) < 100)).mpr h12) (Nat.cast_nonneg _)
    · rw [hlen]
      have hp : p2 / 100 ≤ 1 := (div_le_one (by norm_num : (0 : ℚ) < 100)).mpr h100
      calc p2 / 100 * ((scores.length - 1 : Nat) : ℚ)
          ≤ 1 * ((scores.length - 1 : Nat) : ℚ) :=
            mul_le_mul_of_nonneg_right hp (Nat.cast_nonneg _)
        _ = ((scores.length - 1 : Nat) : ℚ) := one_mul _

/-- Witness for `percentile_param_monotone` at a concrete population. -/
theorem percentile_param_monotone_witness :
    ∃ c1 c2, npPercentile [1, 2] 0 = some c1 ∧ npPercentile [1, 2] 100 = some c2 ∧
      c1 ≤ c2 :=
  percentile_param_monotone [1, 2] 0 100 (by decide) (by decide) (by decide) (by decide)

end BlurCleaner
